import Mathlib

/-!
Shallow embedding of the os-release INI-like parser of src/rust/yai.rs.

A line is modelled as a list of Unicode characters; Rust str values are
sequences of chars, and the byte-index operations of the source are
translated through Char.utf8Size (a Rust string slice index is a byte
offset, and str::get returns none when an endpoint of the range is not a
character boundary).

The regular expression RE_LINE of the source is, written out:

    (?x) ^ (?: (?P<comment> \s* (?: \# .* )? )
             | (?: (?P<varname> [A-Za-z0-9_]+ ) =
                   (?P<full> (?P<oquot> [DQ SQ] )?
                             (?P<quoted> .*? )
                             (?P<cquot> [DQ SQ] )? ) ) ) $

where DQ and SQ stand for the double and the single quote character.
The Rust regex crate has leftmost-first (preference order) match
semantics, classes are anchored to the whole haystack by the circumflex
and the dollar, the dot matches every character except the newline, and
the class backslash-s matches the Unicode White_Space set.  The capture
functions below (commentMatch, splitAssign, fullCaps, captures) are the
direct unfolding of those semantics for this fixed expression:

  * the comment alternative matches iff the line is whitespace, optionally
    followed by a hash and then anything newline-free;
  * varname is the nonempty maximal [A-Za-z0-9_]+ prefix that must be
    followed by the first equals sign, and full is everything after it
    (full must be newline-free for the dot to span it);
  * within full, the greedy oquot takes the first character iff it is a
    quote character; the lazy quoted then takes the shortest span that
    lets the greedy cquot and the dollar consume the rest, so cquot takes
    the final character iff it is a quote character (and is otherwise
    absent, quoted taking everything).
-/

namespace YAI

/-- An error during parsing, mirroring enum YAIError of the source.
Every variant carries the offending line. -/
inductive YAIError where
  | BackslashAtEnd : List Char → YAIError
  | BadLine : List Char → YAIError
  | QuoteInQuoted : List Char → YAIError
  | MismatchedQuotes : List Char → YAIError
deriving DecidableEq, Repr

/-- The Unicode White_Space code points: the class matched by backslash-s
in the regex crate with its default Unicode semantics. -/
def rustIsWhitespace (c : Char) : Bool :=
  decide ((9 ≤ c.toNat ∧ c.toNat ≤ 13) ∨ c.toNat = 32 ∨ c.toNat = 133 ∨
    c.toNat = 160 ∨ c.toNat = 5760 ∨ (8192 ≤ c.toNat ∧ c.toNat ≤ 8202) ∨
    c.toNat = 8232 ∨ c.toNat = 8233 ∨ c.toNat = 8239 ∨ c.toNat = 8287 ∨
    c.toNat = 12288)

/-- The class [A-Za-z0-9_] of the varname capture group (code points
65 to 90, 97 to 122, 48 to 57, and 95). -/
def isVarnameChar (c : Char) : Bool :=
  decide ((65 ≤ c.toNat ∧ c.toNat ≤ 90) ∨ (97 ≤ c.toNat ∧ c.toNat ≤ 122) ∨
    (48 ≤ c.toNat ∧ c.toNat ≤ 57) ∨ c.toNat = 95)

/-- The two-character class of the oquot and cquot capture groups. -/
def isQuoteChar (c : Char) : Bool :=
  c == '"' || c == '\''

/-- Whether the comment alternative of RE_LINE matches the whole line:
a whitespace prefix, optionally followed by a hash sign and then any
newline-free text. -/
def commentMatch : List Char → Bool
  | [] => true
  | c :: rest =>
    if c = '#' then !rest.contains '\n'
    else rustIsWhitespace c && commentMatch rest

/-- Split a line at its first equals sign: the varname group can never
contain an equals sign, so the equals sign of RE_LINE is the first one of
the line.  Returns none when the line has no equals sign. -/
def splitAssign : List Char → Option (List Char × List Char)
  | [] => none
  | c :: rest =>
    if c = '=' then some ([], rest)
    else
      match splitAssign rest with
      | some (n, r) => some (c :: n, r)
      | none => none

/-- The oquot, quoted and cquot captures of the full group, for a
newline-free remainder: the greedy optional oquot takes the first
character iff it is a quote character; the lazy quoted then takes the
shortest span letting the greedy optional cquot and the end anchor
consume the rest, so cquot takes the final remaining character iff it is
a quote character. -/
def fullCaps (rest : List Char) : Option Char × List Char × Option Char :=
  match rest with
  | [] => (none, [], none)
  | c :: r =>
    if isQuoteChar c then
      match r.getLast? with
      | some l => if isQuoteChar l then (some c, r.dropLast, some l) else (some c, r, none)
      | none => (some c, [], none)
    else
      match (c :: r).getLast? with
      | some l =>
        if isQuoteChar l then (none, (c :: r).dropLast, some l) else (none, c :: r, none)
      | none => (none, [], none)

/-- The capture groups produced by a successful match of RE_LINE:
either the comment alternative, or the assignment alternative with its
varname, oquot, quoted, cquot and full groups. -/
inductive Caps where
  | comment : Caps
  | assign (varname : List Char) (oquot : Option Char) (quoted : List Char)
      (cquot : Option Char) (full : List Char) : Caps
deriving DecidableEq, Repr

/-- re_line.captures(line): the comment alternative is preferred; the
assignment alternative needs a nonempty [A-Za-z0-9_]+ name before the
first equals sign and a newline-free remainder after it. -/
def captures (line : List Char) : Option Caps :=
  if commentMatch line then some Caps.comment
  else
    match splitAssign line with
    | none => none
    | some (name, rest) =>
      if !name.isEmpty && name.all isVarnameChar && !rest.contains '\n' then
        some (Caps.assign name (fullCaps rest).1 (fullCaps rest).2.1 (fullCaps rest).2.2 rest)
      else none

/-- The escape-decoding while loop of parse_line (source lines 85 to 101).
The source finds the byte index of the first backslash (a backslash byte
in UTF-8 is always the backslash character), copies the prefix before it,
and reads quoted.get(idx + 1 .. idx + 2): that one-byte range is a valid
char-boundary slice exactly when a next character exists and occupies a
single UTF-8 byte (Char.utf8Size = 1); otherwise get returns none and the
loop stops with BackslashAtEnd. -/
def decodeEscapes (line : List Char) : List Char → Except YAIError (List Char)
  | [] => .ok []
  | c :: rest =>
    if c = '\\' then
      match rest with
      | [] => .error (.BackslashAtEnd line)
      | d :: rest2 =>
        if d.utf8Size = 1 then
          match decodeEscapes line rest2 with
          | .ok v => .ok (d :: v)
          | .error e => .error e
        else .error (.BackslashAtEnd line)
    else
      match decodeEscapes line rest with
      | .ok v => .ok (c :: v)
      | .error e => .error e

/-- The result of parse_line: Ok(None), Ok(Some((name, value))), an Err
carrying a YAIError, or the panic of the unreachable oquot arm (source
line 81). -/
inductive ParseOutcome where
  | ok : Option (List Char × List Char) → ParseOutcome
  | err : YAIError → ParseOutcome
  | panicked : ParseOutcome
deriving DecidableEq, Repr

/-- Wrap the result of escape decoding into the result of parse_line. -/
def finishEntry (varname : List Char) : Except YAIError (List Char) → ParseOutcome
  | .ok v => .ok (some (varname, v))
  | .error e => .err e

/-- fn parse_line (source lines 50 to 106), over the captures model. -/
def parse_line (line : List Char) : ParseOutcome :=
  match captures line with
  | none => .err (.BadLine line)
  | some Caps.comment => .ok none
  | some (Caps.assign varname oquot quoted cquot full) =>
    if oquot = some '\'' then
      if quoted.contains '\'' then .err (.QuoteInQuoted line)
      else if cquot ≠ oquot then .err (.MismatchedQuotes line)
      else .ok (some (varname, quoted))
    else
      match oquot with
      | some c =>
        if c = '"' then
          if cquot ≠ oquot then .err (.MismatchedQuotes line)
          else finishEntry varname (decodeEscapes line quoted)
        else .panicked
      | none => finishEntry varname (decodeEscapes line full)

/-- HashMap::insert modelled on an association list with unique keys:
overwrite the value of an existing key, otherwise append the new pair. -/
def insertEntry : List (List Char × List Char) → List Char → List Char →
    List (List Char × List Char)
  | [], k, v => [(k, v)]
  | p :: m, k, v => if p.1 == k then (k, v) :: m else p :: insertEntry m k v

/-- HashMap::get on the association-list model. -/
def lookupEntry : List (List Char × List Char) → List Char → Option (List Char)
  | [], _ => none
  | p :: m, k => if p.1 == k then some p.2 else lookupEntry m k

/-- The outcome of parsing a whole file: the mapping, the first line
error, or a propagated panic (never reached). -/
inductive FileOutcome where
  | ok : List (List Char × List Char) → FileOutcome
  | err : YAIError → FileOutcome
  | panicked : FileOutcome
deriving DecidableEq, Repr

/-- The loop of fn parse (source lines 115 to 119): fold the lines in
order, inserting entries and stopping at the first error. -/
def parseLines : List (List Char) → List (List Char × List Char) → FileOutcome
  | [], acc => .ok acc
  | l :: rest, acc =>
    match parse_line l with
    | .ok none => parseLines rest acc
    | .ok (some (n, v)) => parseLines rest (insertEntry acc n v)
    | .err e => .err e
    | .panicked => .panicked

/-- fn parse (source lines 109 to 121) on the list of lines of the file
(fs::read_to_string and str::lines precede this; an I/O failure is
returned before any line is parsed and is outside this model). -/
def parse (lines : List (List Char)) : FileOutcome :=
  parseLines lines []

/-- The entry that one line contributes for a given name: the decoded
value when the line parses to an entry with exactly that name. -/
def entryOf (name : List Char) (l : List Char) : Option (List Char) :=
  match parse_line l with
  | .ok (some (n, v)) => if n = name then some v else none
  | _ => none

/-- The decoded value of the last line of the list that defines the given
name, later lines taking precedence over earlier ones. -/
def lastVal : List (List Char) → List Char → Option (List Char)
  | [], _ => none
  | l :: rest, name =>
    match lastVal rest name with
    | some v => some v
    | none => entryOf name l

end YAI

namespace YAI

lemma ws_ne_hash {c : Char} (h : rustIsWhitespace c = true) : c ≠ '#' := by
  intro hcc
  subst hcc
  exact absurd h (by decide)

lemma ws_ne_eq {c : Char} (h : rustIsWhitespace c = true) : c ≠ '=' := by
  intro hcc
  subst hcc
  exact absurd h (by decide)

lemma ws_not_varname {c : Char} (h : rustIsWhitespace c = true) : isVarnameChar c = false := by
  simp only [rustIsWhitespace, decide_eq_true_eq] at h
  simp only [isVarnameChar, decide_eq_false_iff_not]
  omega

lemma varname_ne_hash {c : Char} (h : isVarnameChar c = true) : c ≠ '#' := by
  intro hcc
  subst hcc
  exact absurd h (by decide)

lemma varname_ne_eq {c : Char} (h : isVarnameChar c = true) : c ≠ '=' := by
  intro hcc
  subst hcc
  exact absurd h (by decide)

lemma varname_not_ws {c : Char} (h : isVarnameChar c = true) : rustIsWhitespace c = false := by
  simp only [isVarnameChar, decide_eq_true_eq] at h
  simp only [rustIsWhitespace, decide_eq_false_iff_not]
  omega

lemma quote_cases {q : Char} (h : isQuoteChar q = true) : q = '"' ∨ q = '\'' := by
  simpa [isQuoteChar] using h

lemma commentMatch_of_ws {l : List Char} (h : ∀ c ∈ l, rustIsWhitespace c = true) :
    commentMatch l = true := by
  induction l with
  | nil => rfl
  | cons c t ih =>
    have hc := h c (List.mem_cons_self c t)
    simp [commentMatch, ws_ne_hash hc, hc, ih (fun x hx => h x (List.mem_cons_of_mem _ hx))]

lemma commentMatch_ws_append {ws l : List Char} (h : ∀ c ∈ ws, rustIsWhitespace c = true) :
    commentMatch (ws ++ l) = commentMatch l := by
  induction ws with
  | nil => rfl
  | cons c t ih =>
    have hc := h c (List.mem_cons_self c t)
    simp [commentMatch, ws_ne_hash hc, hc, ih (fun x hx => h x (List.mem_cons_of_mem _ hx))]

lemma commentMatch_hash {pre post : List Char} (h : ∀ c ∈ pre, rustIsWhitespace c = true)
    (hpost : post.contains '\n' = false) :
    commentMatch (pre ++ '#' :: post) = true := by
  rw [commentMatch_ws_append h]
  have hpost' : commentMatch ('#' :: post) = !post.contains '\n' := by simp [commentMatch]
  rw [hpost', hpost]
  rfl

lemma commentMatch_varname_head {c : Char} {t : List Char} (hc : isVarnameChar c = true) :
    commentMatch (c :: t) = false := by
  simp [commentMatch, varname_ne_hash hc, varname_not_ws hc]

lemma splitAssign_append {name rest : List Char} (h : ∀ c ∈ name, c ≠ '=') :
    splitAssign (name ++ '=' :: rest) = some (name, rest) := by
  induction name with
  | nil => simp [splitAssign]
  | cons c t ih =>
    have hc := h c (List.mem_cons_self c t)
    simp [splitAssign, hc, ih (fun x hx => h x (List.mem_cons_of_mem _ hx))]

lemma captures_assign {name rest : List Char} (h1 : name ≠ [])
    (h2 : ∀ c ∈ name, isVarnameChar c = true) (h3 : rest.contains '\n' = false) :
    captures (name ++ '=' :: rest) =
      some (Caps.assign name (fullCaps rest).1 (fullCaps rest).2.1 (fullCaps rest).2.2 rest) := by
  obtain ⟨c, t, rfl⟩ := List.exists_cons_of_ne_nil h1
  have hcm : commentMatch ((c :: t) ++ '=' :: rest) = false := by
    rw [List.cons_append]
    exact commentMatch_varname_head (h2 c (List.mem_cons_self c t))
  have hsp : splitAssign ((c :: t) ++ '=' :: rest) = some (c :: t, rest) :=
    splitAssign_append (fun x hx => varname_ne_eq (h2 x hx))
  have hall : (c :: t).all isVarnameChar = true := List.all_eq_true.mpr h2
  have h3' : '\n' ∉ rest := by simpa using h3
  unfold captures
  rw [hcm, hsp]
  simp [hall, h3']

lemma fullCaps_fst_nonquote {c : Char} {r : List Char} (h : isQuoteChar c = false) :
    (fullCaps (c :: r)).1 = none := by
  unfold fullCaps
  simp only [h, Bool.false_eq_true, if_false]
  cases hg : (c :: r).getLast? with
  | none => rfl
  | some l => by_cases hq : isQuoteChar l <;> simp [hq]

lemma fullCaps_fst_quote {c : Char} {r : List Char} (h : isQuoteChar c = true) :
    (fullCaps (c :: r)).1 = some c := by
  unfold fullCaps
  simp only [h, if_true]
  cases hg : r.getLast? with
  | none => rfl
  | some l => by_cases hq : isQuoteChar l <;> simp [hq]

lemma finishEntry_ok_or_err (nm : List Char) (r : Except YAIError (List Char)) :
    (∃ v, finishEntry nm r = .ok (some (nm, v))) ∨ ∃ e, finishEntry nm r = .err e := by
  cases r with
  | ok v => exact Or.inl ⟨v, rfl⟩
  | error e => exact Or.inr ⟨e, rfl⟩

end YAI

namespace YAI

/-- Claim C1 (code bug evidence): on the concrete line FOO= backslash
e-acute, the code returns BackslashAtEnd even though the backslash is not
the last character of the inner content (the character following it is
the two-byte e-acute, so quoted.get(idx + 1 .. idx + 2) hits a non
boundary and yields none); the claim says that character should have been
emitted literally. -/
theorem c1_backslash_before_multibyte :
    parse_line (String.toList "FOO=\\é") =
      .err (.BackslashAtEnd (String.toList "FOO=\\é")) ∧
    captures (String.toList "FOO=\\é") =
      some (Caps.assign (String.toList "FOO") none (String.toList "\\é") none
        (String.toList "\\é")) ∧
    (String.toList "\\é").getLast? = some 'é' := by
  refine ⟨by decide, by decide, by decide⟩

/-- Claim C2 counterexample: parsing the line FOO="meow\" does not return
MismatchedQuotes (the regex hands the final double quote to the cquot
capture, so the quotes match). -/
theorem c2_counterexample :
    parse_line (String.toList "FOO=\"meow\\\"") ≠
      .err (.MismatchedQuotes (String.toList "FOO=\"meow\\\"")) := by
  decide

/-- Claim C2 (amended): parsing the line FOO="meow\" returns the
BackslashAtEnd error: the final double quote is captured as the closing
quote, and the remaining inner content meow-backslash ends with an
unconsumed backslash. -/
theorem c2_amended_backslash_at_end :
    parse_line (String.toList "FOO=\"meow\\\"") =
      .err (.BackslashAtEnd (String.toList "FOO=\"meow\\\"")) := by
  decide

/-- Claim C4: a line that is all whitespace, or whitespace followed by a
hash sign and then anything (newline-free, as every line of a file is),
parses to Ignored. -/
theorem c4_blank_and_comment_ignored (line : List Char)
    (h : (∀ c ∈ line, rustIsWhitespace c = true) ∨
      ∃ pre post, line = pre ++ '#' :: post ∧ (∀ c ∈ pre, rustIsWhitespace c = true) ∧
        post.contains '\n' = false) :
    parse_line line = .ok none := by
  have hcm : commentMatch line = true := by
    rcases h with h | ⟨pre, post, rfl, hpre, hpost⟩
    · exact commentMatch_of_ws h
    · exact commentMatch_hash hpre hpost
  unfold parse_line captures
  simp [hcm]

theorem c4_witness : parse_line (String.toList "  # hi") = .ok none :=
  c4_blank_and_comment_ignored (String.toList "  # hi")
    (Or.inr ⟨[' ', ' '], String.toList " hi", by decide, by decide, by decide⟩)

/-- Claim C5: for a name=value line whose value does not start with a
quote character (newline-free, as every line of a file is), the whole
remainder after the equals sign is escape-decoded as the value, any
trailing quote character included. -/
theorem c5_unquoted_uses_full_remainder (name rest : List Char) (h1 : name ≠ [])
    (h2 : ∀ c ∈ name, isVarnameChar c = true)
    (h3 : ∀ c r, rest = c :: r → isQuoteChar c = false)
    (h4 : rest.contains '\n' = false) :
    parse_line (name ++ '=' :: rest) =
      finishEntry name (decodeEscapes (name ++ '=' :: rest) rest) := by
  have hc := captures_assign h1 h2 h4
  have ho : (fullCaps rest).1 = none := by
    cases rest with
    | nil => rfl
    | cons c r => exact fullCaps_fst_nonquote (h3 c r rfl)
  unfold parse_line
  rw [hc, ho]
  simp

theorem c5_witness :
    parse_line (String.toList "NAME" ++ '=' :: ('a' :: 'b' :: 'c' :: '\'' :: [])) =
      finishEntry (String.toList "NAME")
        (decodeEscapes (String.toList "NAME" ++ '=' :: ('a' :: 'b' :: 'c' :: '\'' :: []))
          ('a' :: 'b' :: 'c' :: '\'' :: [])) :=
  c5_unquoted_uses_full_remainder (String.toList "NAME") ('a' :: 'b' :: 'c' :: '\'' :: [])
    (by decide) (by decide)
    (fun c r hc => by injection hc with hh ht; rw [← hh]; decide)
    (by decide)

/-- Claim C6: a value consisting of a single opening quote character with
nothing after it is a MismatchedQuotes error. -/
theorem c6_lone_quote_mismatched (name : List Char) (q : Char) (h1 : name ≠ [])
    (h2 : ∀ c ∈ name, isVarnameChar c = true) (hq : isQuoteChar q = true) :
    parse_line (name ++ '=' :: [q]) = .err (.MismatchedQuotes (name ++ '=' :: [q])) := by
  have hnl : ([q]).contains '\n' = false := by
    rcases quote_cases hq with rfl | rfl <;> decide
  have hc := captures_assign h1 h2 hnl
  have hfc : fullCaps [q] = (some q, [], none) := by
    unfold fullCaps
    simp [hq]
  rw [hfc] at hc
  unfold parse_line
  rw [hc]
  rcases quote_cases hq with rfl | rfl <;> simp

theorem c6_witness :
    parse_line (String.toList "NAME" ++ '=' :: ['\'']) =
      .err (.MismatchedQuotes (String.toList "NAME" ++ '=' :: ['\''])) :=
  c6_lone_quote_mismatched (String.toList "NAME") '\'' (by decide) (by decide) (by decide)

/-- Claim C9: when a single-quoted value has an embedded single quote in
its captured inner content and its closing-quote capture is not a single
quote, the embedded-quote check wins and QuoteInQuoted is returned. -/
theorem c9_quote_in_quoted_precedence (line name quoted full : List Char) (cquot : Option Char)
    (hc : captures line = some (Caps.assign name (some '\'') quoted cquot full))
    (hq : quoted.contains '\'' = true) (hcq : cquot ≠ some '\'') :
    parse_line line = .err (.QuoteInQuoted line) := by
  have hq' : '\'' ∈ quoted := by simpa using hq
  unfold parse_line
  rw [hc]
  simp [hq']

theorem c9_witness :
    parse_line (String.toList "NAME=" ++ ['\'', 'a', '\'', 'b']) =
      .err (.QuoteInQuoted (String.toList "NAME=" ++ ['\'', 'a', '\'', 'b'])) :=
  c9_quote_in_quoted_precedence (String.toList "NAME=" ++ ['\'', 'a', '\'', 'b'])
    (String.toList "NAME") (['a', '\'', 'b']) (['\'', 'a', '\'', 'b']) none
    (by decide) (by decide) (by decide)

/-- Claim C10: leading whitespace before an otherwise well-formed
assignment makes the whole line a BadLine error. -/
theorem c10_leading_whitespace_bad_line (ws name rest : List Char) (h0 : ws ≠ [])
    (h1 : ∀ c ∈ ws, rustIsWhitespace c = true) (h2 : name ≠ [])
    (h3 : ∀ c ∈ name, isVarnameChar c = true) :
    parse_line (ws ++ name ++ '=' :: rest) =
      .err (.BadLine (ws ++ name ++ '=' :: rest)) := by
  have hcm : commentMatch (ws ++ name ++ '=' :: rest) = false := by
    rw [List.append_assoc, commentMatch_ws_append h1]
    obtain ⟨c, t, rfl⟩ := List.exists_cons_of_ne_nil h2
    rw [List.cons_append]
    exact commentMatch_varname_head (h3 c (List.mem_cons_self c t))
  have hsp : splitAssign (ws ++ name ++ '=' :: rest) = some (ws ++ name, rest) := by
    refine splitAssign_append (fun c hc => ?_)
    rcases List.mem_append.mp hc with h | h
    · exact ws_ne_eq (h1 c h)
    · exact varname_ne_eq (h3 c h)
  have hall : (ws ++ name).all isVarnameChar = false := by
    obtain ⟨c, t, rfl⟩ := List.exists_cons_of_ne_nil h0
    have hcv : isVarnameChar c = false := ws_not_varname (h1 c (List.mem_cons_self c t))
    simp [List.all_cons, hcv]
  unfold parse_line captures
  rw [hcm, hsp]
  simp [hall]

theorem c10_witness :
    parse_line ([' ', ' '] ++ String.toList "NAME" ++ '=' :: String.toList "v") =
      .err (.BadLine ([' ', ' '] ++ String.toList "NAME" ++ '=' :: String.toList "v")) :=
  c10_leading_whitespace_bad_line [' ', ' '] (String.toList "NAME") (String.toList "v")
    (by decide) (by decide) (by decide) (by decide)

end YAI

namespace YAI

lemma captures_oquot_quote {line nm q full : List Char} {o cq : Option Char}
    (h : captures line = some (Caps.assign nm o q cq full)) :
    o = none ∨ ∃ ch, o = some ch ∧ isQuoteChar ch = true := by
  unfold captures at h
  split at h
  · simp at h
  · cases hs : splitAssign line with
    | none => simp [hs] at h
    | some pr =>
      obtain ⟨nm', rest⟩ := pr
      simp only [hs] at h
      split at h
      · simp only [Option.some.injEq, Caps.assign.injEq] at h
        obtain ⟨-, ho, -, -, -⟩ := h
        cases rest with
        | nil => exact Or.inl (by rw [← ho]; rfl)
        | cons c r =>
          by_cases hc : isQuoteChar c = true
          · exact Or.inr ⟨c, by rw [← ho]; exact fullCaps_fst_quote hc, hc⟩
          · exact Or.inl (by
              rw [← ho]
              exact fullCaps_fst_nonquote (by simpa using hc))
      · exact absurd h (by simp)

/-- Claim C8: parse_line is total; on every line it returns Ok or Err and
the panic arm for an opening-quote capture other than the two quote
characters is never reached. -/
theorem c8_total_never_panics (line : List Char) :
    (∃ r, parse_line line = ParseOutcome.ok r) ∨ ∃ e, parse_line line = ParseOutcome.err e := by
  unfold parse_line
  cases hc : captures line with
  | none => exact Or.inr ⟨_, rfl⟩
  | some caps =>
    cases caps with
    | comment => exact Or.inl ⟨_, rfl⟩
    | assign nm o q cq full =>
      rcases captures_oquot_quote hc with rfl | ⟨ch, rfl, hch⟩
      · rcases finishEntry_ok_or_err nm (decodeEscapes line full) with ⟨v, hv⟩ | ⟨e, he⟩
        · refine Or.inl ⟨some (nm, v), ?_⟩
          simp [hv]
        · refine Or.inr ⟨e, ?_⟩
          simp [he]
      · rcases quote_cases hch with rfl | rfl
        · by_cases hcq : cq = some '"'
          · subst hcq
            rcases finishEntry_ok_or_err nm (decodeEscapes line q) with ⟨v, hv⟩ | ⟨e, he⟩
            · refine Or.inl ⟨some (nm, v), ?_⟩
              simp [hv]
            · refine Or.inr ⟨e, ?_⟩
              simp [he]
          · refine Or.inr ⟨.MismatchedQuotes line, ?_⟩
            simp [hcq]
        · by_cases hq1 : '\'' ∈ q
          · refine Or.inr ⟨.QuoteInQuoted line, ?_⟩
            simp [hq1]
          · by_cases hcq : cq = some '\''
            · subst hcq
              refine Or.inl ⟨some (nm, q), ?_⟩
              simp [hq1]
            · refine Or.inr ⟨.MismatchedQuotes line, ?_⟩
              simp [hq1, hcq]

lemma parseLines_first_err (pre : List (List Char)) (bad : List Char) (post : List (List Char))
    (e : YAIError) :
    ∀ acc, (∀ l ∈ pre, ∃ r, parse_line l = ParseOutcome.ok r) →
      parse_line bad = ParseOutcome.err e →
      parseLines (pre ++ bad :: post) acc = FileOutcome.err e := by
  induction pre with
  | nil =>
    intro acc _ hbad
    simp [parseLines, hbad]
  | cons l pre ih =>
    intro acc hpre hbad
    obtain ⟨r, hr⟩ := hpre l (List.mem_cons_self l pre)
    have hrest : ∀ x ∈ pre, ∃ r, parse_line x = ParseOutcome.ok r :=
      fun x hx => hpre x (List.mem_cons_of_mem l hx)
    cases r with
    | none =>
      rw [List.cons_append]
      simp only [parseLines, hr]
      exact ih acc hrest hbad
    | some p =>
      obtain ⟨n, v⟩ := p
      rw [List.cons_append]
      simp only [parseLines, hr]
      exact ih (insertEntry acc n v) hrest hbad

/-- Claim C3: when the lines of a file are some prefix of individually
valid lines, then a first failing line, then anything, the file parse
returns exactly the error of that first failing line and no mapping. -/
theorem c3_first_error_aborts (pre : List (List Char)) (bad : List Char)
    (post : List (List Char)) (e : YAIError)
    (hpre : ∀ l ∈ pre, ∃ r, parse_line l = ParseOutcome.ok r)
    (hbad : parse_line bad = ParseOutcome.err e) :
    parse (pre ++ bad :: post) = FileOutcome.err e :=
  parseLines_first_err pre bad post e [] hpre hbad

theorem c3_witness :
    parse [String.toList "A=x", String.toList "FOO BAR=baz", String.toList "A=y"] =
      FileOutcome.err (.BadLine (String.toList "FOO BAR=baz")) :=
  c3_first_error_aborts [String.toList "A=x"] (String.toList "FOO BAR=baz")
    [String.toList "A=y"] (.BadLine (String.toList "FOO BAR=baz"))
    (by
      intro l hl
      rw [List.mem_singleton] at hl
      subst hl
      exact ⟨some (String.toList "A", String.toList "x"), by decide⟩)
    (by decide)

end YAI

namespace YAI

lemma lookupEntry_insertEntry (m : List (List Char × List Char)) (k v k' : List Char) :
    lookupEntry (insertEntry m k v) k' = if k' = k then some v else lookupEntry m k' := by
  induction m with
  | nil =>
    by_cases h : k' = k
    · simp [insertEntry, lookupEntry, h]
    · have h2 : ¬k = k' := fun hk => h hk.symm
      simp [insertEntry, lookupEntry, h, h2]
  | cons p m ih =>
    by_cases hp : p.1 = k
    · by_cases h : k' = k
      · simp [insertEntry, lookupEntry, hp, h]
      · have h2 : ¬k = k' := fun hk => h hk.symm
        simp only [insertEntry, hp, beq_self_eq_true, if_true]
        simp [lookupEntry, h, h2, hp]
    · by_cases h : k' = k
      · subst h
        have h2 : ¬p.1 = k' := hp
        simp [insertEntry, lookupEntry, hp, ih, h2]
      · simp only [insertEntry, beq_iff_eq, hp, if_false]
        by_cases hpk : p.1 = k'
        · simp [lookupEntry, hpk, h]
        · simp [lookupEntry, hpk, h, ih]

lemma mem_keys_insertEntry {m : List (List Char × List Char)} {k v a : List Char}
    (h : a ∈ (insertEntry m k v).map Prod.fst) : a = k ∨ a ∈ m.map Prod.fst := by
  induction m with
  | nil =>
    simp [insertEntry] at h
    exact Or.inl h
  | cons p m ih =>
    by_cases hp : p.1 = k
    · simp only [insertEntry, hp, beq_self_eq_true, if_true, List.map_cons,
        List.mem_cons] at h
      rcases h with h | h
      · exact Or.inl h
      · exact Or.inr (by rw [List.map_cons, List.mem_cons]; exact Or.inr h)
    · simp only [insertEntry, beq_iff_eq, hp, if_false, List.map_cons, List.mem_cons] at h
      rcases h with h | h
      · exact Or.inr (by rw [List.map_cons, List.mem_cons]; exact Or.inl h)
      · rcases ih h with h | h
        · exact Or.inl h
        · exact Or.inr (by rw [List.map_cons, List.mem_cons]; exact Or.inr h)

lemma nodup_keys_insertEntry {m : List (List Char × List Char)} {k v : List Char}
    (h : (m.map Prod.fst).Nodup) : ((insertEntry m k v).map Prod.fst).Nodup := by
  induction m with
  | nil => simp [insertEntry]
  | cons p m ih =>
    rw [List.map_cons, List.nodup_cons] at h
    obtain ⟨hp1, hp2⟩ := h
    by_cases hp : p.1 = k
    · simp only [insertEntry, hp, beq_self_eq_true, if_true, List.map_cons]
      rw [List.nodup_cons]
      exact ⟨by rw [← hp]; exact hp1, hp2⟩
    · simp only [insertEntry, beq_iff_eq, hp, if_false, List.map_cons]
      rw [List.nodup_cons]
      refine ⟨fun hm => ?_, ih hp2⟩
      rcases mem_keys_insertEntry hm with h | h
      · exact hp h
      · exact hp1 h

lemma parseLines_all_ok (lines : List (List Char)) :
    ∀ acc, (∀ l ∈ lines, ∃ r, parse_line l = ParseOutcome.ok r) →
      (acc.map Prod.fst).Nodup →
      ∃ m, parseLines lines acc = FileOutcome.ok m ∧ (m.map Prod.fst).Nodup ∧
        ∀ name, lookupEntry m name =
          match lastVal lines name with
          | some v => some v
          | none => lookupEntry acc name := by
  induction lines with
  | nil =>
    intro acc _ hacc
    exact ⟨acc, rfl, hacc, fun name => by simp [lastVal]⟩
  | cons l rest ih =>
    intro acc h hacc
    obtain ⟨r, hr⟩ := h l (List.mem_cons_self l rest)
    have hrest : ∀ x ∈ rest, ∃ r, parse_line x = ParseOutcome.ok r :=
      fun x hx => h x (List.mem_cons_of_mem l hx)
    cases r with
    | none =>
      obtain ⟨m, hm, hnd, hlook⟩ := ih acc hrest hacc
      refine ⟨m, by simp [parseLines, hr, hm], hnd, fun name => ?_⟩
      rw [hlook name]
      have he : entryOf name l = none := by simp [entryOf, hr]
      cases hv : lastVal rest name <;> simp [lastVal, hv, he]
    | some p =>
      obtain ⟨n, v⟩ := p
      obtain ⟨m, hm, hnd, hlook⟩ :=
        ih (insertEntry acc n v) hrest (nodup_keys_insertEntry hacc)
      refine ⟨m, by simp [parseLines, hr, hm], hnd, fun name => ?_⟩
      rw [hlook name]
      have he : entryOf name l = if n = name then some v else none := by
        simp [entryOf, hr]
      cases hv : lastVal rest name with
      | some w => simp [lastVal, hv]
      | none =>
        rw [lookupEntry_insertEntry]
        by_cases hn : n = name
        · subst hn
          simp [lastVal, hv, he]
        · have hn2 : ¬name = n := fun hk => hn hk.symm
          simp [lastVal, hv, he, hn, hn2]

/-- Claim C7: a file whose lines are all individually valid parses to a
mapping with one entry per distinct name, each name bound to the decoded
value of its last defining line. -/
theorem c7_later_line_overwrites (lines : List (List Char))
    (h : ∀ l ∈ lines, ∃ r, parse_line l = ParseOutcome.ok r) :
    ∃ m, parse lines = FileOutcome.ok m ∧ (m.map Prod.fst).Nodup ∧
      ∀ name, lookupEntry m name = lastVal lines name := by
  obtain ⟨m, hm, hnd, hlook⟩ := parseLines_all_ok lines [] h (by simp)
  refine ⟨m, hm, hnd, fun name => ?_⟩
  rw [hlook name]
  cases hv : lastVal lines name <;> simp [lookupEntry]

theorem c7_witness :
    ∃ m, parse [String.toList "A=x", String.toList "A=y"] = FileOutcome.ok m ∧
      (m.map Prod.fst).Nodup ∧
      ∀ name, lookupEntry m name = lastVal [String.toList "A=x", String.toList "A=y"] name :=
  c7_later_line_overwrites [String.toList "A=x", String.toList "A=y"]
    (by
      intro l hl
      rw [List.mem_cons, List.mem_singleton] at hl
      rcases hl with rfl | rfl
      · exact ⟨some (String.toList "A", String.toList "x"), by decide⟩
      · exact ⟨some (String.toList "A", String.toList "y"), by decide⟩)

end YAI
